import Mathlib

/-!
Verification of the Sudoku puzzle engine (`src/gameboard.rs`) and its edit
session (`src/gameboard_controller.rs`).

A board is embedded as a total function `Nat → Nat → Nat`; the program only
ever reads and writes indices `0..8`, and all statements are about that range.
`cells r c` is the cell at row `r`, column `c`, matching the row-major
`cells[row][col]` storage of the source.  Cell value `0` means empty.

The recursive backtracking of `Gameboard::solve` and `Gameboard::fill_board`
is embedded with an explicit fuel parameter (structural recursion on fuel);
each level of the real recursion fills one empty cell, so `81 + 1` fuel is
always enough, and the theorems below carry the hypothesis
`countZeros g ≤ fuel` discharged by `countZeros_le_81`.

Randomness (`thread_rng` + `shuffle`) is modelled by parameters: the
generator takes `sup : Nat → List Nat`, the sequence of shuffled candidate
lists (one per visit of an empty cell, as in the source, which reshuffles
`1..=9` at every visit), and `generate_random` takes the shuffled list of
the 81 positions.  The theorems quantify over all such parameters that a
shuffle can produce (same elements as `[1,…,9]`, resp. a permutation of the
position list).
-/

namespace Sudoku

/-- A 9×9 board: `g r c` is the value of the cell at row `r`, column `c`.
Only indices `< 9` are meaningful. -/
abbrev Board := Nat → Nat → Nat

/-- Build a board from a list-of-rows literal (missing entries read 0). -/
def ofCells (l : List (List Nat)) : Board := fun r c => (l.getD r []).getD c 0

/-- `cells[r][c] = v`, all other cells unchanged (`Gameboard::set`, with the
source's `[x, y]` index pair already resolved to row `r = y`, column `c = x`). -/
def setCell (g : Board) (r c v : Nat) : Board :=
  fun r' c' => if r' = r ∧ c' = c then v else g r' c'

/-- The candidate digits `1..=9`, in ascending order as `solve` tries them. -/
def digits : List Nat := [1, 2, 3, 4, 5, 6, 7, 8, 9]

/-- `Gameboard::is_valid_move(row, col, num)`: `num` appears in no cell of
row `row`, column `col`, or the containing 3×3 box, *excluding* the cell
`(row, col)` itself. -/
def is_valid_move (g : Board) (row col num : Nat) : Bool :=
  ((List.range 9).all fun i =>
    (i == col || !(g row i == num)) && (i == row || !(g i col == num))) &&
  ((List.range 3).all fun dr => (List.range 3).all fun dc =>
    (row / 3 * 3 + dr == row && col / 3 * 3 + dc == col) ||
      !(g (row / 3 * 3 + dr) (col / 3 * 3 + dc) == num))

/-- `Gameboard::is_valid_static(board, row, col, num)`: like `is_valid_move`
but the cell `(row, col)` itself is *not* excluded (the generator only calls
it on empty cells, where the difference is invisible). -/
def is_valid_static (g : Board) (row col num : Nat) : Bool :=
  ((List.range 9).all fun i => !(g row i == num) && !(g i col == num)) &&
  ((List.range 3).all fun dr => (List.range 3).all fun dc =>
    !(g (row / 3 * 3 + dr) (col / 3 * 3 + dc) == num))

/-- All 81 positions `(row, col)` in row-major order — the scan order of
`solve`, `fill_board`, and the controller's cell loops. -/
def allPositions : List (Nat × Nat) :=
  (List.range 9).flatMap fun r => (List.range 9).map fun c => (r, c)

/-- The first empty cell in row-major order, if any. -/
def findEmpty (g : Board) : Option (Nat × Nat) :=
  allPositions.find? fun p => g p.1 p.2 == 0

/-- Number of empty cells among the 81 on-board positions. -/
def countZeros (g : Board) : Nat :=
  (Finset.univ.filter fun p : Fin 9 × Fin 9 => g p.1.val p.2.val = 0).card

/-- Number of non-empty cells among the 81 on-board positions. -/
def countFilled (g : Board) : Nat :=
  (Finset.univ.filter fun p : Fin 9 × Fin 9 => g p.1.val p.2.val ≠ 0).card

/-- The candidate loop shared by `solve` and `fill_board`: try each `n` in
`nums` at the (empty) cell `(r, c)`; on a valid candidate write it and
recurse; if the recursion fails, zero the cell again (exactly as the source
does, on whatever board the failed recursion left behind) and go on; when
the candidates run out, report failure.  `k` threads the random supply. -/
def tryNums (valid : Board → Nat → Nat → Nat → Bool)
    (recurse : Board → Nat → Board × Bool × Nat) (r c : Nat) :
    Board → List Nat → Nat → Board × Bool × Nat
  | g, [], k => (g, false, k)
  | g, n :: ns, k =>
    if valid g r c n then
      let res := recurse (setCell g r c n) k
      if res.2.1 then res
      else tryNums valid recurse r c (setCell res.1 r c 0) ns res.2.2
    else tryNums valid recurse r c g ns k

/-- The backtracking engine of `Gameboard::solve` / `Gameboard::fill_board`:
find the first empty cell in row-major order (none left means success) and
run the candidate loop on `sup k`, the candidate list drawn for this visit.
Fuel-indexed; one unit of fuel is spent per visited empty cell. -/
def searchFuel (valid : Board → Nat → Nat → Nat → Bool) (sup : Nat → List Nat) :
    Nat → Board → Nat → Board × Bool × Nat
  | 0 => fun g k => (g, false, k)
  | fuel + 1 => fun g k =>
    match findEmpty g with
    | none => (g, true, k)
    | some (r, c) => tryNums valid (searchFuel valid sup fuel) r c g (sup k) (k + 1)

/-- `Gameboard::solve`, functionally: the returned board is the final state
of the in-place grid, the Bool is the return value.  Candidates are the
fixed ascending `1..=9`; fuel 82 exceeds the 81 possible empty cells. -/
def solveB (g : Board) : Board × Bool :=
  let r := searchFuel is_valid_move (fun _ => digits) 82 g 0
  (r.1, r.2.1)

/-- `Gameboard::fill_board`, with the per-visit shuffles supplied by `sup`. -/
def fill_board (sup : Nat → List Nat) (g : Board) : Board × Bool :=
  let r := searchFuel is_valid_static sup 82 g 0
  (r.1, r.2.1)

/-- The all-empty board `Gameboard::generate_full_solution` starts from. -/
def emptyBoard : Board := fun _ _ => 0

/-- `Gameboard::generate_full_solution`: fill the empty board; note the
source ignores `fill_board`'s Bool and returns the board unconditionally. -/
def generate_full_solution (sup : Nat → List Nat) : Board :=
  (fill_board sup emptyBoard).1

/-- `Gameboard::generate_random(holes)`: carve `holes` cells out of a full
solution.  `positions` is the shuffled list of all 81 positions. -/
def generate_random (holes : Nat) (sup : Nat → List Nat)
    (positions : List (Nat × Nat)) : Board :=
  (positions.take holes).foldl (fun b p => setCell b p.1 p.2 0)
    (generate_full_solution sup)

/-! ### Validity predicates used by the theorems -/

/-- Every non-empty on-board cell holds a value in `1..9` that passes
`is_valid_move` at its own position (no duplicate in its row, column, box). -/
def AllOk (g : Board) : Prop :=
  ∀ r < 9, ∀ c < 9, g r c ≠ 0 → g r c ≤ 9 ∧ is_valid_move g r c (g r c) = true

/-- Every on-board cell is non-empty. -/
def noZeros (g : Board) : Prop := ∀ r < 9, ∀ c < 9, g r c ≠ 0

/-- `S` agrees with `g` on every non-empty on-board cell of `g`. -/
def extendsB (g S : Board) : Prop := ∀ r < 9, ∀ c < 9, g r c ≠ 0 → S r c = g r c

/-- `g'` differs from `g` only by filling on-board empty cells with `1..9`. -/
def fillsOk (g g' : Board) : Prop :=
  ∀ r c, g' r c ≠ g r c → r < 9 ∧ c < 9 ∧ g r c = 0 ∧ 1 ≤ g' r c ∧ g' r c ≤ 9

instance (g : Board) : Decidable (AllOk g) := by
  unfold AllOk; exact inferInstance

instance (g : Board) : Decidable (noZeros g) := by
  unfold noZeros; exact inferInstance

instance (g S : Board) : Decidable (extendsB g S) := by
  unfold extendsB; exact inferInstance

/-- The digit values `1..9` seen as a list-membership fact. -/
lemma mem_digits {d : Nat} : d ∈ digits ↔ 1 ≤ d ∧ d ≤ 9 := by
  constructor
  · intro h; fin_cases h <;> omega
  · intro ⟨h1, h9⟩
    interval_cases d <;> simp [digits]

/-! ### Basic lemmas about `setCell`, `findEmpty`, `countZeros` -/

@[simp] lemma setCell_same (g : Board) (r c v : Nat) : setCell g r c v r c = v := by
  simp [setCell]

lemma setCell_other (g : Board) {r c v r' c' : Nat}
    (h : ¬(r' = r ∧ c' = c)) : setCell g r c v r' c' = g r' c' := by
  simp [setCell, h]

lemma setCell_cancel (g : Board) {r c : Nat} (v : Nat) (h : g r c = 0) :
    setCell (setCell g r c v) r c 0 = g := by
  funext r' c'
  by_cases hp : r' = r ∧ c' = c
  · obtain ⟨rfl, rfl⟩ := hp; simp [setCell, h]
  · simp [setCell, hp]

lemma mem_allPositions {p : Nat × Nat} : p ∈ allPositions ↔ p.1 < 9 ∧ p.2 < 9 := by
  obtain ⟨r, c⟩ := p
  simp only [allPositions, List.mem_flatMap, List.mem_map, List.mem_range]
  constructor
  · rintro ⟨a, ha, b, hb, h⟩
    injection h with h1 h2
    subst h1; subst h2
    exact ⟨ha, hb⟩
  · rintro ⟨hr, hc⟩; exact ⟨r, hr, c, hc, rfl⟩

lemma findEmpty_eq_none {g : Board} : findEmpty g = none ↔ noZeros g := by
  simp only [findEmpty, List.find?_eq_none, noZeros]
  constructor
  · intro h r hr c hc
    have := h (r, c) (mem_allPositions.mpr ⟨hr, hc⟩)
    simpa using this
  · intro h p hp
    have := h p.1 (mem_allPositions.mp hp).1 p.2 (mem_allPositions.mp hp).2
    simpa using this

lemma findEmpty_some {g : Board} {r c : Nat} (h : findEmpty g = some (r, c)) :
    r < 9 ∧ c < 9 ∧ g r c = 0 := by
  have hm := List.mem_of_find?_eq_some h
  have hv := List.find?_some h
  have := mem_allPositions.mp hm
  exact ⟨this.1, this.2, by simpa using hv⟩

lemma countZeros_le_81 (g : Board) : countZeros g ≤ 81 := by
  calc countZeros g ≤ Finset.univ.card := Finset.card_filter_le _ _
    _ = 81 := by simp

lemma countZeros_setCell {g : Board} {r c v : Nat} (hr : r < 9) (hc : c < 9)
    (h0 : g r c = 0) (hv : v ≠ 0) :
    countZeros (setCell g r c v) + 1 = countZeros g := by
  classical
  have hmem : ((⟨r, hr⟩, ⟨c, hc⟩) : Fin 9 × Fin 9) ∈
      Finset.univ.filter fun p : Fin 9 × Fin 9 => g p.1.val p.2.val = 0 := by
    simp [h0]
  have hset : (Finset.univ.filter fun p : Fin 9 × Fin 9 => setCell g r c v p.1.val p.2.val = 0)
      = (Finset.univ.filter fun p : Fin 9 × Fin 9 => g p.1.val p.2.val = 0).erase
          (⟨r, hr⟩, ⟨c, hc⟩) := by
    ext p
    by_cases hp : p.1.val = r ∧ p.2.val = c
    · have hpeq : p = ((⟨r, hr⟩, ⟨c, hc⟩) : Fin 9 × Fin 9) := by
        obtain ⟨p1, p2⟩ := p
        simp only at hp
        exact Prod.ext (Fin.ext hp.1) (Fin.ext hp.2)
      subst hpeq
      simp [setCell, hv]
    · simp only [Finset.mem_filter, Finset.mem_univ, true_and, Finset.mem_erase]
      rw [setCell_other g hp]
      constructor
      · intro h
        refine ⟨?_, h⟩
        intro hcontra
        apply hp
        rw [hcontra]
        exact ⟨rfl, rfl⟩
      · exact fun h => h.2
  unfold countZeros
  rw [hset, Finset.card_erase_of_mem hmem]
  have hpos : 0 < (Finset.univ.filter fun p : Fin 9 × Fin 9 => g p.1.val p.2.val = 0).card :=
    Finset.card_pos.mpr ⟨_, hmem⟩
  omega

/-! ### Characterization of the validity checks -/

/-- `num` does not appear at any position of the 3×3 box of `(row, col)`
other than `(row, col)` itself, phrased over arbitrary in-range positions. -/
def boxFree (g : Board) (row col num : Nat) : Prop :=
  ∀ r' < 9, ∀ c' < 9, r' / 3 = row / 3 → c' / 3 = col / 3 →
    ¬(r' = row ∧ c' = col) → g r' c' ≠ num

lemma is_valid_move_iff {g : Board} {row col num : Nat}
    (hrow : row < 9) (hcol : col < 9) :
    is_valid_move g row col num = true ↔
      (∀ i < 9, (i ≠ col → g row i ≠ num) ∧ (i ≠ row → g i col ≠ num)) ∧
      boxFree g row col num := by
  simp only [is_valid_move, Bool.and_eq_true, List.all_eq_true, List.mem_range,
    Bool.or_eq_true, Bool.not_eq_true', beq_iff_eq, beq_eq_false_iff_ne, boxFree]
  constructor
  · rintro ⟨hrc, hbox⟩
    refine ⟨fun i hi => ?_, fun r' hr' c' hc' hr3 hc3 hne => ?_⟩
    · obtain ⟨h1, h2⟩ := hrc i hi
      constructor
      · intro hic
        rcases h1 with h | h
        · exact absurd h hic
        · exact h
      · intro hir
        rcases h2 with h | h
        · exact absurd h hir
        · exact h
    · have hd := hbox (r' - row / 3 * 3) (by omega) (c' - col / 3 * 3) (by omega)
      have her : row / 3 * 3 + (r' - row / 3 * 3) = r' := by omega
      have hec : col / 3 * 3 + (c' - col / 3 * 3) = c' := by omega
      rw [her, hec] at hd
      rcases hd with h | h
      · exact absurd h hne
      · exact h
  · rintro ⟨hrc, hbox⟩
    refine ⟨fun i hi => ?_, fun dr hdr dc hdc => ?_⟩
    · obtain ⟨h1, h2⟩ := hrc i hi
      constructor
      · by_cases hic : i = col
        · exact Or.inl hic
        · exact Or.inr (h1 hic)
      · by_cases hir : i = row
        · exact Or.inl hir
        · exact Or.inr (h2 hir)
    · by_cases heq : row / 3 * 3 + dr = row ∧ col / 3 * 3 + dc = col
      · exact Or.inl heq
      · exact Or.inr (hbox _ (by omega) _ (by omega) (by omega) (by omega) heq)

lemma is_valid_static_iff {g : Board} {row col num : Nat}
    (hrow : row < 9) (hcol : col < 9) :
    is_valid_static g row col num = true ↔
      (∀ i < 9, g row i ≠ num ∧ g i col ≠ num) ∧
      (∀ r' < 9, ∀ c' < 9, r' / 3 = row / 3 → c' / 3 = col / 3 → g r' c' ≠ num) := by
  simp only [is_valid_static, Bool.and_eq_true, List.all_eq_true, List.mem_range,
    Bool.not_eq_true', beq_eq_false_iff_ne]
  constructor
  · rintro ⟨hrc, hbox⟩
    refine ⟨fun i hi => hrc i hi, fun r' hr' c' hc' hr3 hc3 => ?_⟩
    have hd := hbox (r' - row / 3 * 3) (by omega) (c' - col / 3 * 3) (by omega)
    have her : row / 3 * 3 + (r' - row / 3 * 3) = r' := by omega
    have hec : col / 3 * 3 + (c' - col / 3 * 3) = c' := by omega
    rwa [her, hec] at hd
  · rintro ⟨hrc, hbox⟩
    exact ⟨fun i hi => hrc i hi,
      fun dr hdr dc hdc => hbox _ (by omega) _ (by omega) (by omega) (by omega)⟩

lemma is_valid_static_imp_move {g : Board} {row col num : Nat}
    (hrow : row < 9) (hcol : col < 9)
    (h : is_valid_static g row col num = true) :
    is_valid_move g row col num = true := by
  rw [is_valid_static_iff hrow hcol] at h
  rw [is_valid_move_iff hrow hcol]
  obtain ⟨hrc, hbox⟩ := h
  exact ⟨fun i hi => ⟨fun _ => (hrc i hi).1, fun _ => (hrc i hi).2⟩,
    fun r' hr' c' hc' h3 h3' _ => hbox r' hr' c' hc' h3 h3'⟩

/-- `is_valid_move` never reads the checked cell: boards agreeing everywhere
else give the same verdict. -/
lemma is_valid_move_congr {g g' : Board} {row col num : Nat}
    (hrow : row < 9) (hcol : col < 9)
    (hagree : ∀ r' c', ¬(r' = row ∧ c' = col) → g' r' c' = g r' c') :
    (is_valid_move g' row col num = true ↔ is_valid_move g row col num = true) := by
  rw [is_valid_move_iff hrow hcol, is_valid_move_iff hrow hcol]
  constructor
  · rintro ⟨hrc, hbox⟩
    refine ⟨fun i hi => ⟨fun hic => ?_, fun hir => ?_⟩,
      fun r' hr' c' hc' h3 h3' hne => ?_⟩
    · rw [← hagree row i (by tauto)]; exact (hrc i hi).1 hic
    · rw [← hagree i col (by tauto)]; exact (hrc i hi).2 hir
    · rw [← hagree r' c' hne]; exact hbox r' hr' c' hc' h3 h3' hne
  · rintro ⟨hrc, hbox⟩
    refine ⟨fun i hi => ⟨fun hic => ?_, fun hir => ?_⟩,
      fun r' hr' c' hc' h3 h3' hne => ?_⟩
    · rw [hagree row i (by tauto)]; exact (hrc i hi).1 hic
    · rw [hagree i col (by tauto)]; exact (hrc i hi).2 hir
    · rw [hagree r' c' hne]; exact hbox r' hr' c' hc' h3 h3' hne

/-! ### Preservation of board consistency by a valid placement -/

/-- Writing a digit that passes `is_valid_move` into an empty cell keeps
every non-empty cell of the board individually valid. -/
lemma AllOk_setCell {g : Board} {r c n : Nat} (hA : AllOk g)
    (hr : r < 9) (hc : c < 9) (h0 : g r c = 0) (hn9 : n ≤ 9)
    (hv : is_valid_move g r c n = true) : AllOk (setCell g r c n) := by
  intro r' hr' c' hc' hne0
  have hagree : ∀ r'' c'', ¬(r'' = r ∧ c'' = c) → setCell g r c n r'' c'' = g r'' c'' :=
    fun _ _ h => setCell_other g h
  by_cases hp : r' = r ∧ c' = c
  · obtain ⟨rfl, rfl⟩ := hp
    rw [setCell_same]
    exact ⟨hn9, (is_valid_move_congr hr hc hagree).mpr hv⟩
  · rw [setCell_other g hp] at hne0 ⊢
    obtain ⟨hle, hvm⟩ := hA r' hr' c' hc' hne0
    refine ⟨hle, ?_⟩
    rw [is_valid_move_iff hr' hc'] at hvm ⊢
    obtain ⟨hrcV, hboxV⟩ := hvm
    rw [is_valid_move_iff hr hc] at hv
    obtain ⟨hrcN, hboxN⟩ := hv
    refine ⟨fun i hi => ⟨fun hic => ?_, fun hir => ?_⟩,
      fun r'' hr'' c'' hc'' h3 h3' hne => ?_⟩
    · -- row r' of the new board, position (r', i), i ≠ c'
      by_cases hq : r' = r ∧ i = c
      · have hcc : c' ≠ c := fun h => hp ⟨hq.1, h⟩
        rw [hq.1, hq.2, setCell_same]
        exact fun hcontra => (hrcN c' hc').1 hcc hcontra.symm
      · rw [setCell_other g hq]
        exact (hrcV i hi).1 hic
    · by_cases hq : i = r ∧ c' = c
      · have hrr : r' ≠ r := fun h => hp ⟨h, hq.2⟩
        rw [hq.1, hq.2, setCell_same]
        exact fun hcontra => (hrcN r' hr').2 hrr hcontra.symm
      · rw [setCell_other g hq]
        exact (hrcV i hi).2 hir
    · by_cases hq : r'' = r ∧ c'' = c
      · have e1 : r' / 3 = r / 3 := by rw [← hq.1]; omega
        have e2 : c' / 3 = c / 3 := by rw [← hq.2]; omega
        rw [hq.1, hq.2, setCell_same]
        exact fun hcontra => hboxN r' hr' c' hc' e1 e2 hp hcontra.symm
      · rw [setCell_other g hq]
        exact hboxV r'' hr'' c'' hc'' h3 h3' hne

lemma fillsOk_refl (g : Board) : fillsOk g g := fun _ _ h => absurd rfl h

lemma fillsOk_step {g g2 : Board} {r c n : Nat} (hr : r < 9) (hc : c < 9)
    (h0 : g r c = 0) (hn1 : 1 ≤ n) (hn9 : n ≤ 9)
    (h : fillsOk (setCell g r c n) g2) : fillsOk g g2 := by
  intro r' c' hne
  by_cases hp : r' = r ∧ c' = c
  · obtain ⟨rfl, rfl⟩ := hp
    refine ⟨hr, hc, h0, ?_⟩
    by_cases hg2 : g2 r' c' = setCell g r' c' n r' c'
    · rw [hg2, setCell_same]; omega
    · have := h r' c' hg2
      rw [setCell_same] at this
      omega
  · have hother : setCell g r c n r' c' = g r' c' := setCell_other g hp
    have hne2 : g2 r' c' ≠ setCell g r c n r' c' := by rw [hother]; exact hne
    have := h r' c' hne2
    rw [hother] at this
    exact this

/-! ### The backtracking engine: failure restores the board -/

lemma tryNums_restore {valid : Board → Nat → Nat → Nat → Bool} {F : Nat}
    {recurse : Board → Nat → Board × Bool × Nat}
    (hrec : ∀ h k, countZeros h ≤ F →
      (recurse h k).2.1 = false → (recurse h k).1 = h)
    {r c : Nat} (hr : r < 9) (hc : c < 9) {g : Board} (h0 : g r c = 0)
    (hcount : countZeros g ≤ F + 1) :
    ∀ nums, (∀ n ∈ nums, n ≠ 0) → ∀ k,
      (tryNums valid recurse r c g nums k).2.1 = false →
      (tryNums valid recurse r c g nums k).1 = g := by
  intro nums
  induction nums with
  | nil => intro _ k _; simp [tryNums]
  | cons n ns ih =>
    intro hnz k
    have hn0 : n ≠ 0 := hnz n (List.mem_cons_self n ns)
    simp only [tryNums]
    by_cases hvn : valid g r c n = true
    · rw [if_pos hvn]
      rcases hres : recurse (setCell g r c n) k with ⟨g2, ok2, k2⟩
      rcases ok2 with _ | _
      · -- recursion failed: board was restored, loop continues on `g` itself
        have hcz : countZeros (setCell g r c n) ≤ F := by
          have := countZeros_setCell hr hc h0 hn0
          omega
        have hg2 : g2 = setCell g r c n := by
          have := hrec (setCell g r c n) k hcz
          rw [hres] at this
          exact this rfl
        simp only [hres, hg2, setCell_cancel g n h0]
        exact ih (fun m hm => hnz m (List.mem_cons_of_mem n hm)) k2
      · -- recursion succeeded: result is `true`, hypothesis is `false`
        simp [hres]
    · rw [if_neg hvn]
      exact ih (fun m hm => hnz m (List.mem_cons_of_mem n hm)) k

lemma searchFuel_restore {valid : Board → Nat → Nat → Nat → Bool}
    {sup : Nat → List Nat} (hsup : ∀ k n, n ∈ sup k → n ≠ 0) :
    ∀ fuel (g : Board) k, countZeros g ≤ fuel →
      (searchFuel valid sup fuel g k).2.1 = false →
      (searchFuel valid sup fuel g k).1 = g := by
  intro fuel
  induction fuel with
  | zero => intro g k _ _; simp [searchFuel]
  | succ fuel ih =>
    intro g k hcount
    rcases hfe : findEmpty g with _ | ⟨r, c⟩
    · simp [searchFuel, hfe]
    · obtain ⟨hr, hc, h0⟩ := findEmpty_some hfe
      simp only [searchFuel, hfe]
      have hcz : countZeros g ≤ fuel + 1 := hcount
      exact tryNums_restore (fun h kk hk => ih h kk hk) hr hc h0 hcz
        (sup k) (fun n hn => hsup k n hn) (k + 1)


/-! ### The backtracking engine: success fills the board consistently -/

lemma tryNums_sound {valid : Board → Nat → Nat → Nat → Bool} {F : Nat}
    {recurse : Board → Nat → Board × Bool × Nat}
    (hvalid : ∀ g r c n, r < 9 → c < 9 →
      valid g r c n = true → is_valid_move g r c n = true)
    (hrec_restore : ∀ h k, countZeros h ≤ F →
      (recurse h k).2.1 = false → (recurse h k).1 = h)
    (hrec_sound : ∀ h k, countZeros h ≤ F → (recurse h k).2.1 = true →
      fillsOk h (recurse h k).1 ∧ noZeros (recurse h k).1 ∧
        (AllOk h → AllOk (recurse h k).1))
    {r c : Nat} (hr : r < 9) (hc : c < 9) {g : Board} (h0 : g r c = 0)
    (hcount : countZeros g ≤ F + 1) :
    ∀ nums, (∀ n ∈ nums, 1 ≤ n ∧ n ≤ 9) → ∀ k,
      (tryNums valid recurse r c g nums k).2.1 = true →
      fillsOk g (tryNums valid recurse r c g nums k).1 ∧
        noZeros (tryNums valid recurse r c g nums k).1 ∧
        (AllOk g → AllOk (tryNums valid recurse r c g nums k).1) := by
  intro nums
  induction nums with
  | nil => intro _ k hok; simp [tryNums] at hok
  | cons n ns ih =>
    intro hmem k
    have hn : 1 ≤ n ∧ n ≤ 9 := hmem n (List.mem_cons_self n ns)
    have hn0 : n ≠ 0 := by omega
    have hcz : countZeros (setCell g r c n) ≤ F := by
      have := countZeros_setCell hr hc h0 hn0
      omega
    simp only [tryNums]
    by_cases hvn : valid g r c n = true
    · rw [if_pos hvn]
      rcases hres : recurse (setCell g r c n) k with ⟨g2, ok2, k2⟩
      rcases ok2 with _ | _
      · -- recursion failed and restored; the loop continues on `g`
        have hg2 : g2 = setCell g r c n := by
          have := hrec_restore (setCell g r c n) k hcz
          rw [hres] at this
          exact this rfl
        simp only [hres, hg2, setCell_cancel g n h0]
        exact ih (fun m hm => hmem m (List.mem_cons_of_mem n hm)) k2
      · -- recursion succeeded: its result is the overall result
        intro _
        have hs := hrec_sound (setCell g r c n) k hcz
        rw [hres] at hs
        have hs := hs rfl
        simp only [hres]
        refine ⟨fillsOk_step hr hc h0 hn.1 hn.2 hs.1, hs.2.1, fun hA => ?_⟩
        exact hs.2.2 (AllOk_setCell hA hr hc h0 hn.2 (hvalid _ _ _ _ hr hc hvn))
    · rw [if_neg hvn]
      exact ih (fun m hm => hmem m (List.mem_cons_of_mem n hm)) k

lemma searchFuel_sound {valid : Board → Nat → Nat → Nat → Bool}
    {sup : Nat → List Nat}
    (hvalid : ∀ g r c n, r < 9 → c < 9 →
      valid g r c n = true → is_valid_move g r c n = true)
    (hsup : ∀ k n, n ∈ sup k → 1 ≤ n ∧ n ≤ 9) :
    ∀ fuel (g : Board) k, countZeros g ≤ fuel →
      (searchFuel valid sup fuel g k).2.1 = true →
      fillsOk g (searchFuel valid sup fuel g k).1 ∧
        noZeros (searchFuel valid sup fuel g k).1 ∧
        (AllOk g → AllOk (searchFuel valid sup fuel g k).1) := by
  intro fuel
  induction fuel with
  | zero => intro g k _ hok; simp [searchFuel] at hok
  | succ fuel ih =>
    intro g k hcount
    rcases hfe : findEmpty g with _ | ⟨r, c⟩
    · intro _
      simp only [searchFuel, hfe]
      exact ⟨fillsOk_refl g, findEmpty_eq_none.mp hfe, fun hA => hA⟩
    · obtain ⟨hr, hc, h0⟩ := findEmpty_some hfe
      simp only [searchFuel, hfe]
      have hsup0 : ∀ k n, n ∈ sup k → n ≠ 0 := by
        intro kk m hm
        have := hsup kk m hm
        omega
      exact tryNums_sound hvalid
        (fun h kk hk => searchFuel_restore hsup0 fuel h kk hk)
        (fun h kk hk => ih h kk hk) hr hc h0 hcount
        (sup k) (fun m hm => hsup k m hm) (k + 1)

/-! ### The backtracking engine: a completable board is completed -/

lemma countZeros_pos {g : Board} {r c : Nat} (hr : r < 9) (hc : c < 9)
    (h0 : g r c = 0) : 1 ≤ countZeros g := by
  have := countZeros_setCell (v := 1) hr hc h0 (by omega)
  omega

/-- On a board that a fully valid complete board `S` extends, `S`'s value for
an empty cell always passes `is_valid_move`. -/
lemma is_valid_move_of_extends {g S : Board} {r c : Nat}
    (hext : extendsB g S) (hSA : AllOk S) (hSz : noZeros S)
    (hr : r < 9) (hc : c < 9) (h0 : g r c = 0) :
    is_valid_move g r c (S r c) = true := by
  have hv0 : S r c ≠ 0 := hSz r hr c hc
  obtain ⟨hle, hvm⟩ := hSA r hr c hc hv0
  rw [is_valid_move_iff hr hc] at hvm ⊢
  obtain ⟨hrcS, hboxS⟩ := hvm
  refine ⟨fun i hi => ⟨fun hic => ?_, fun hir => ?_⟩,
    fun r' hr' c' hc' h3 h3' hne => ?_⟩
  · intro hcontra
    have hne0 : g r i ≠ 0 := by rw [hcontra]; exact hv0
    have := hext r hr i hi hne0
    exact (hrcS i hi).1 hic (by rw [this, hcontra])
  · intro hcontra
    have hne0 : g i c ≠ 0 := by rw [hcontra]; exact hv0
    have := hext i hi c hc hne0
    exact (hrcS i hi).2 hir (by rw [this, hcontra])
  · intro hcontra
    have hne0 : g r' c' ≠ 0 := by rw [hcontra]; exact hv0
    have := hext r' hr' c' hc' hne0
    exact hboxS r' hr' c' hc' h3 h3' hne (by rw [this, hcontra])

/-- Same fact for the generator's `is_valid_static` check (which also
compares the empty target cell itself, harmlessly). -/
lemma is_valid_static_of_extends {g S : Board} {r c : Nat}
    (hext : extendsB g S) (hSA : AllOk S) (hSz : noZeros S)
    (hr : r < 9) (hc : c < 9) (h0 : g r c = 0) :
    is_valid_static g r c (S r c) = true := by
  have hv0 : S r c ≠ 0 := hSz r hr c hc
  have hmv := is_valid_move_of_extends hext hSA hSz hr hc h0
  rw [is_valid_move_iff hr hc] at hmv
  obtain ⟨hrcS, hboxS⟩ := hmv
  rw [is_valid_static_iff hr hc]
  refine ⟨fun i hi => ⟨?_, ?_⟩, fun r' hr' c' hc' h3 h3' => ?_⟩
  · by_cases hic : i = c
    · rw [hic, h0]; exact fun h => hv0 h.symm
    · exact (hrcS i hi).1 hic
  · by_cases hir : i = r
    · rw [hir, h0]; exact fun h => hv0 h.symm
    · exact (hrcS i hi).2 hir
  · by_cases hp : r' = r ∧ c' = c
    · rw [hp.1, hp.2, h0]; exact fun h => hv0 h.symm
    · exact hboxS r' hr' c' hc' h3 h3' hp

lemma tryNums_complete {valid : Board → Nat → Nat → Nat → Bool} {F : Nat}
    {recurse : Board → Nat → Board × Bool × Nat} {S : Board}
    (hrec_restore : ∀ h k, countZeros h ≤ F →
      (recurse h k).2.1 = false → (recurse h k).1 = h)
    (hrec_complete : ∀ h k, countZeros h < F → extendsB h S →
      (recurse h k).2.1 = true)
    {r c : Nat} (hr : r < 9) (hc : c < 9) {g : Board} (h0 : g r c = 0)
    (hcount : countZeros g ≤ F) (hext : extendsB g S)
    (hvS : valid g r c (S r c) = true) :
    ∀ nums, (∀ n ∈ nums, n ≠ 0) → S r c ∈ nums → ∀ k,
      (tryNums valid recurse r c g nums k).2.1 = true := by
  have hpos := countZeros_pos hr hc h0
  have hextS : extendsB (setCell g r c (S r c)) S := by
    intro r' hr' c' hc' hne0
    by_cases hp : r' = r ∧ c' = c
    · rw [hp.1, hp.2, setCell_same]
    · rw [setCell_other g hp] at hne0 ⊢
      exact hext r' hr' c' hc' hne0
  intro nums
  induction nums with
  | nil => intro _ hmem; exact absurd hmem (List.not_mem_nil _)
  | cons n ns ih =>
    intro hnz hmem k
    have hn0 : n ≠ 0 := hnz n (List.mem_cons_self n ns)
    have hdec := countZeros_setCell hr hc h0 hn0
    simp only [tryNums]
    by_cases hvn : valid g r c n = true
    · rw [if_pos hvn]
      rcases hres : recurse (setCell g r c n) k with ⟨g2, ok2, k2⟩
      rcases ok2 with _ | _
      · -- this candidate failed, so it cannot be S's value for the cell
        have hnS : n ≠ S r c := by
          intro hcontra
          have hcz : countZeros (setCell g r c n) < F := by omega
          have hext2 : extendsB (setCell g r c n) S := by
            rw [hcontra]; exact hextS
          have hcomp := hrec_complete (setCell g r c n) k hcz hext2
          rw [hres] at hcomp
          simp at hcomp
        have hg2 : g2 = setCell g r c n := by
          have hcz : countZeros (setCell g r c n) ≤ F := by omega
          have := hrec_restore (setCell g r c n) k hcz
          rw [hres] at this
          exact this rfl
        have hmem2 : S r c ∈ ns := by
          rcases List.mem_cons.mp hmem with h | h
          · exact absurd h.symm hnS
          · exact h
        simp only [hres, hg2, setCell_cancel g n h0]
        exact ih (fun m hm => hnz m (List.mem_cons_of_mem n hm)) hmem2 k2
      · simp [hres]
    · rw [if_neg hvn]
      have hnS : n ≠ S r c := by
        intro h
        apply hvn
        rw [h]
        exact hvS
      have hmem2 : S r c ∈ ns := by
        rcases List.mem_cons.mp hmem with h | h
        · exact absurd h.symm hnS
        · exact h
      exact ih (fun m hm => hnz m (List.mem_cons_of_mem n hm)) hmem2 k

lemma searchFuel_complete {valid : Board → Nat → Nat → Nat → Bool}
    {sup : Nat → List Nat} {S : Board}
    (hvalidc : ∀ (g : Board) r c, extendsB g S → r < 9 → c < 9 → g r c = 0 →
      valid g r c (S r c) = true)
    (hsup0 : ∀ k n, n ∈ sup k → n ≠ 0)
    (hsupfull : ∀ k d, 1 ≤ d → d ≤ 9 → d ∈ sup k)
    (hSA : AllOk S) (hSz : noZeros S) :
    ∀ fuel (g : Board) k, countZeros g < fuel → extendsB g S →
      (searchFuel valid sup fuel g k).2.1 = true := by
  intro fuel
  induction fuel with
  | zero => intro g k h _; omega
  | succ fuel ih =>
    intro g k hcount hext
    rcases hfe : findEmpty g with _ | ⟨r, c⟩
    · simp [searchFuel, hfe]
    · obtain ⟨hr, hc, h0⟩ := findEmpty_some hfe
      simp only [searchFuel, hfe]
      have hS9 : 1 ≤ S r c ∧ S r c ≤ 9 := by
        have h1 := hSz r hr c hc
        have h2 := (hSA r hr c hc h1).1
        omega
      exact tryNums_complete
        (fun h kk hk => searchFuel_restore hsup0 fuel h kk hk)
        (fun h kk hk hx => ih h kk hk hx)
        hr hc h0 (by omega) hext (hvalidc g r c hext hr hc h0)
        (sup k) (fun m hm => hsup0 k m hm)
        (hsupfull k (S r c) hS9.1 hS9.2) (k + 1)

/-! ### A filled consistent board is a fully valid Sudoku solution -/

/-- The 9 values of row `r`, left to right. -/
def rowVals (g : Board) (r : Nat) : List Nat := (List.range 9).map fun c => g r c

/-- The 9 values of column `c`, top to bottom. -/
def colVals (g : Board) (c : Nat) : List Nat := (List.range 9).map fun r => g r c

/-- The 9 values of box `b` (`b / 3` box-row, `b % 3` box-column), row-major. -/
def boxVals (g : Board) (b : Nat) : List Nat :=
  (List.range 9).map fun k => g (b / 3 * 3 + k / 3) (b % 3 * 3 + k % 3)

/-- A list contains each digit `1..9` exactly once. -/
def exactlyOnce (l : List Nat) : Prop := ∀ d ∈ digits, l.count d = 1

/-- Every row, every column, and every 3×3 box contains each digit `1..9`
exactly once. -/
def fullyValid (g : Board) : Prop :=
  (∀ r < 9, exactlyOnce (rowVals g r)) ∧ (∀ c < 9, exactlyOnce (colVals g c)) ∧
    (∀ b < 9, exactlyOnce (boxVals g b))

instance (l : List Nat) : Decidable (exactlyOnce l) := by
  unfold exactlyOnce; exact inferInstance

instance (g : Board) : Decidable (fullyValid g) := by
  unfold fullyValid exactlyOnce; exact inferInstance

lemma exactlyOnce_of_nodup {l : List Nat} (hlen : l.length = 9)
    (hmem : ∀ x ∈ l, 1 ≤ x ∧ x ≤ 9) (hnd : l.Nodup) : exactlyOnce l := by
  intro d hd
  obtain ⟨h1, h9⟩ := mem_digits.mp hd
  have hsub : l.toFinset ⊆ Finset.Icc 1 9 := by
    intro x hx
    rw [List.mem_toFinset] at hx
    have := hmem x hx
    rw [Finset.mem_Icc]
    omega
  have hcard : (Finset.Icc 1 9).card ≤ l.toFinset.card := by
    rw [List.toFinset_card_of_nodup hnd, hlen, Nat.card_Icc]
  have heq : l.toFinset = Finset.Icc 1 9 := Finset.eq_of_subset_of_card_le hsub hcard
  have hdl : d ∈ l := by
    rw [← List.mem_toFinset, heq, Finset.mem_Icc]
    omega
  exact List.count_eq_one_of_mem hnd hdl

lemma nodup_map_range {f : Nat → Nat}
    (hinj : ∀ i < 9, ∀ j < 9, f i = f j → i = j) :
    ((List.range 9).map f).Nodup := by
  refine List.Nodup.map_on ?_ (List.nodup_range 9)
  intro i hi j hj hf
  rw [List.mem_range] at hi hj
  exact hinj i hi j hj hf

/-- A complete board whose every cell passes `is_valid_move` is a fully
valid solution. -/
lemma fullyValid_of_AllOk {g : Board} (hA : AllOk g) (hz : noZeros g) :
    fullyValid g := by
  refine ⟨fun r hr => ?_, fun c hc => ?_, fun b hb => ?_⟩
  · refine exactlyOnce_of_nodup (by simp [rowVals]) ?_ ?_
    · intro x hx
      simp only [rowVals, List.mem_map, List.mem_range] at hx
      obtain ⟨c, hc, rfl⟩ := hx
      have h1 := hz r hr c hc
      have h2 := (hA r hr c hc h1).1
      omega
    · refine nodup_map_range fun c1 hc1 c2 hc2 hf => ?_
      by_contra hne
      have hnz := hz r hr c2 hc2
      have hvm := (hA r hr c2 hc2 hnz).2
      rw [is_valid_move_iff hr hc2] at hvm
      exact (hvm.1 c1 hc1).1 hne hf
  · refine exactlyOnce_of_nodup (by simp [colVals]) ?_ ?_
    · intro x hx
      simp only [colVals, List.mem_map, List.mem_range] at hx
      obtain ⟨r, hrow, rfl⟩ := hx
      have h1 := hz r hrow c hc
      have h2 := (hA r hrow c hc h1).1
      omega
    · refine nodup_map_range fun r1 hr1 r2 hr2 hf => ?_
      by_contra hne
      have hnz := hz r2 hr2 c hc
      have hvm := (hA r2 hr2 c hc hnz).2
      rw [is_valid_move_iff hr2 hc] at hvm
      exact (hvm.1 r1 hr1).2 hne hf
  · refine exactlyOnce_of_nodup (by simp [boxVals]) ?_ ?_
    · intro x hx
      simp only [boxVals, List.mem_map, List.mem_range] at hx
      obtain ⟨k, hk, rfl⟩ := hx
      have hrk : b / 3 * 3 + k / 3 < 9 := by omega
      have hck : b % 3 * 3 + k % 3 < 9 := by omega
      have h1 := hz _ hrk _ hck
      have h2 := (hA _ hrk _ hck h1).1
      omega
    · refine nodup_map_range fun k1 hk1 k2 hk2 hf => ?_
      by_contra hne
      have hr2 : b / 3 * 3 + k2 / 3 < 9 := by omega
      have hc2 : b % 3 * 3 + k2 % 3 < 9 := by omega
      have hr1 : b / 3 * 3 + k1 / 3 < 9 := by omega
      have hc1 : b % 3 * 3 + k1 % 3 < 9 := by omega
      have hnz := hz _ hr2 _ hc2
      have hvm := (hA _ hr2 _ hc2 hnz).2
      rw [is_valid_move_iff hr2 hc2] at hvm
      have hneq : ¬(b / 3 * 3 + k1 / 3 = b / 3 * 3 + k2 / 3 ∧
          b % 3 * 3 + k1 % 3 = b % 3 * 3 + k2 % 3) := by
        intro hcontra
        apply hne
        omega
      exact hvm.2 _ hr1 _ hc1 (by omega) (by omega) hneq hf

/-! ### Solve-level wrappers -/

lemma digits_bounds : ∀ (k : Nat) n, n ∈ (fun _ : Nat => digits) k → 1 ≤ n ∧ n ≤ 9 :=
  fun _ n hn => mem_digits.mp hn

lemma digits_nonzero : ∀ (k : Nat) n, n ∈ (fun _ : Nat => digits) k → n ≠ 0 := by
  intro k n hn
  have := mem_digits.mp hn
  omega

lemma solveB_restore {g : Board} (h : (solveB g).2 = false) : (solveB g).1 = g := by
  simp only [solveB] at h ⊢
  exact searchFuel_restore digits_nonzero 82 g 0
    (by have := countZeros_le_81 g; omega) h

lemma solveB_sound {g : Board} (h : (solveB g).2 = true) :
    fillsOk g (solveB g).1 ∧ noZeros (solveB g).1 ∧
      (AllOk g → AllOk (solveB g).1) := by
  simp only [solveB] at h ⊢
  exact searchFuel_sound (fun _ _ _ _ _ _ hv => hv) digits_bounds 82 g 0
    (by have := countZeros_le_81 g; omega) h

lemma solveB_complete {g S : Board} (hext : extendsB g S) (hSA : AllOk S)
    (hSz : noZeros S) : (solveB g).2 = true := by
  simp only [solveB]
  exact searchFuel_complete
    (fun g' r c hx hr hc h0 => is_valid_move_of_extends hx hSA hSz hr hc h0)
    digits_nonzero (fun k d h1 h9 => mem_digits.mpr ⟨h1, h9⟩) hSA hSz
    82 g 0 (by have := countZeros_le_81 g; omega) hext

/-! ### Concrete boards for witnesses and counterexamples -/

/-- A fully valid complete solution (the shifted canonical pattern). -/
def fullB : Board := ofCells [
  [1,2,3,4,5,6,7,8,9],
  [4,5,6,7,8,9,1,2,3],
  [7,8,9,1,2,3,4,5,6],
  [2,3,4,5,6,7,8,9,1],
  [5,6,7,8,9,1,2,3,4],
  [8,9,1,2,3,4,5,6,7],
  [3,4,5,6,7,8,9,1,2],
  [6,7,8,9,1,2,3,4,5],
  [9,1,2,3,4,5,6,7,8]]

/-- `fullB` with the centre cell emptied: a puzzle `solve` closes instantly. -/
def oneHole : Board := setCell fullB 4 4 0

/-- Every cell holds 1: complete (no empty cell) but wildly invalid. -/
def onesB : Board := fun _ _ => 1

/-- Cell (0,8) is the first empty cell and admits no digit (1–8 appear in
its row, 9 in its column), so `solve` fails immediately. -/
def failB : Board := ofCells [
  [1,2,3,4,5,6,7,8,0],
  [0,0,0,0,0,0,0,0,9]]

/-- The spec's concrete scenario: only row 0 is non-zero, `[1,2,3,4,5,6,7,8,0]`. -/
def rowScen : Board := ofCells [[1,2,3,4,5,6,7,8,0]]

/-! ### Claim C10 -/

/-- C10: if `solve(g)` returns false, every cell of `g` after the call equals
its value before the call — the failed backtracking search zeroes every cell
it wrote, so `solve` is atomic on failure. -/
theorem solve_atomic_on_failure (g : Board)
    (h : (solveB g).2 = false) : (solveB g).1 = g :=
  solveB_restore h

theorem solve_atomic_on_failure_wit :
    (solveB failB).2 = false ∧ (solveB failB).1 = failB :=
  ⟨by decide, solve_atomic_on_failure failB (by decide)⟩

/-! ### Claim C1 -/

/-- C1 counterexample: on the all-ones grid (no cell empty, values in 0–9),
`solve` returns true, yet row 0 does not contain each digit 1–9 exactly
once (the digit 2 never occurs), contradicting the claim's unconditional
soundness statement. -/
theorem solve_true_invalid_grid_cex :
    (solveB onesB).2 = true ∧ ¬ fullyValid (solveB onesB).1 := by
  constructor
  · decide
  · decide

/-- C1 (amended): if every non-zero cell of `g` holds a value in 1–9 that
does not clash with its row, column, or box (`AllOk g`), and `solve(g)`
returns true, then afterwards every row, column and 3×3 box contains each
digit 1–9 exactly once, and every originally non-zero cell is unchanged. -/
theorem solve_sound_on_consistent (g : Board) (hA : AllOk g)
    (h : (solveB g).2 = true) :
    fullyValid (solveB g).1 ∧
      ∀ r < 9, ∀ c < 9, g r c ≠ 0 → (solveB g).1 r c = g r c := by
  obtain ⟨hfills, hz, hok⟩ := solveB_sound h
  refine ⟨fullyValid_of_AllOk (hok hA) hz, ?_⟩
  intro r hr c hc hne
  by_contra hne2
  exact hne (hfills r c hne2).2.2.1

theorem solve_sound_on_consistent_wit :
    AllOk oneHole ∧ (solveB oneHole).2 = true ∧
      (fullyValid (solveB oneHole).1 ∧
        ∀ r < 9, ∀ c < 9, oneHole r c ≠ 0 → (solveB oneHole).1 r c = oneHole r c) :=
  ⟨by decide, by decide, solve_sound_on_consistent oneHole (by decide) (by decide)⟩

/-! ### Claim C2 -/

/-- C2: `is_valid_move(row, col, num)` is true iff `num` appears in none of
the other cells of row `row`, none of the other cells of column `col`, and
none of the other cells of the containing 3×3 box — the cell `(row, col)`
itself excluded from all three comparisons; and on the grid whose only
non-zero row is `[1,2,3,4,5,6,7,8,0]`, `is_valid_move(0, 8, 9)` is true and
`is_valid_move(0, 8, 1)` is false. -/
theorem is_valid_move_correct (g : Board) (row col num : Nat)
    (hrow : row < 9) (hcol : col < 9) (hnum : 1 ≤ num ∧ num ≤ 9) :
    (is_valid_move g row col num = true ↔
      (∀ i < 9, i ≠ col → g row i ≠ num) ∧
      (∀ i < 9, i ≠ row → g i col ≠ num) ∧
      boxFree g row col num) ∧
    (is_valid_move rowScen 0 8 9 = true ∧ is_valid_move rowScen 0 8 1 = false) := by
  refine ⟨?_, by decide, by decide⟩
  rw [is_valid_move_iff hrow hcol]
  constructor
  · rintro ⟨hrc, hbox⟩
    exact ⟨fun i hi => (hrc i hi).1, fun i hi => (hrc i hi).2, hbox⟩
  · rintro ⟨h1, h2, hbox⟩
    exact ⟨fun i hi => ⟨h1 i hi, h2 i hi⟩, hbox⟩

theorem is_valid_move_correct_wit :
    (0 : Nat) < 9 ∧ (8 : Nat) < 9 ∧ (1 ≤ 9 ∧ (9 : Nat) ≤ 9) ∧
      ((is_valid_move rowScen 0 8 9 = true ↔
        (∀ i < 9, i ≠ 8 → rowScen 0 i ≠ 9) ∧
        (∀ i < 9, i ≠ 0 → rowScen i 8 ≠ 9) ∧
        boxFree rowScen 0 8 9) ∧
      (is_valid_move rowScen 0 8 9 = true ∧ is_valid_move rowScen 0 8 1 = false)) :=
  ⟨by decide, by decide, by decide,
    is_valid_move_correct rowScen 0 8 9 (by decide) (by decide) (by decide)⟩

/-! ### Claim C3: generator validity -/

/-- What the per-visit shuffles of `1..=9` can look like: any list with the
same members as `digits`. -/
def supOK (sup : Nat → List Nat) : Prop := ∀ k d, d ∈ sup k ↔ d ∈ digits

lemma fullB_AllOk : AllOk fullB := by decide

lemma fullB_noZeros : noZeros fullB := by decide

lemma emptyBoard_AllOk : AllOk emptyBoard := fun _ _ _ _ hne => absurd rfl hne

lemma countFilled_of_noZeros {g : Board} (hz : noZeros g) : countFilled g = 81 := by
  unfold countFilled
  have heq : (Finset.univ.filter fun p : Fin 9 × Fin 9 => g p.1.val p.2.val ≠ 0)
      = Finset.univ := by
    apply Finset.filter_true_of_mem
    intro p _
    exact hz p.1.val p.1.isLt p.2.val p.2.isLt
  rw [heq]
  simp

lemma countFilled_setCell_zero {g : Board} {r c : Nat} (hr : r < 9) (hc : c < 9)
    (h0 : g r c ≠ 0) : countFilled (setCell g r c 0) + 1 = countFilled g := by
  classical
  have hmem : ((⟨r, hr⟩, ⟨c, hc⟩) : Fin 9 × Fin 9) ∈
      Finset.univ.filter fun p : Fin 9 × Fin 9 => g p.1.val p.2.val ≠ 0 := by
    simp [h0]
  have hset : (Finset.univ.filter fun p : Fin 9 × Fin 9 =>
        setCell g r c 0 p.1.val p.2.val ≠ 0)
      = (Finset.univ.filter fun p : Fin 9 × Fin 9 => g p.1.val p.2.val ≠ 0).erase
          (⟨r, hr⟩, ⟨c, hc⟩) := by
    ext p
    by_cases hp : p.1.val = r ∧ p.2.val = c
    · have hpeq : p = ((⟨r, hr⟩, ⟨c, hc⟩) : Fin 9 × Fin 9) := by
        obtain ⟨p1, p2⟩ := p
        simp only at hp
        exact Prod.ext (Fin.ext hp.1) (Fin.ext hp.2)
      subst hpeq
      simp [setCell]
    · simp only [Finset.mem_filter, Finset.mem_univ, true_and, Finset.mem_erase]
      rw [setCell_other g hp]
      constructor
      · intro h
        refine ⟨?_, h⟩
        intro hcontra
        apply hp
        rw [hcontra]
        exact ⟨rfl, rfl⟩
      · exact fun h => h.2
  unfold countFilled
  rw [hset, Finset.card_erase_of_mem hmem]
  have hpos : 0 < (Finset.univ.filter fun p : Fin 9 × Fin 9 => g p.1.val p.2.val ≠ 0).card :=
    Finset.card_pos.mpr ⟨_, hmem⟩
  omega

/-- Carving a list of distinct, in-range, non-empty positions removes
exactly that many filled cells. -/
lemma zeroFold_filled : ∀ (L : List (Nat × Nat)) (b : Board), L.Nodup →
    (∀ p ∈ L, p.1 < 9 ∧ p.2 < 9 ∧ b p.1 p.2 ≠ 0) →
    countFilled (L.foldl (fun bb p => setCell bb p.1 p.2 0) b) + L.length
      = countFilled b := by
  intro L
  induction L with
  | nil => intro b _ _; simp
  | cons p L ih =>
    intro b hnd hmem
    obtain ⟨hp1, hp2, hp0⟩ := hmem p (List.mem_cons_self p L)
    have hstep := countFilled_setCell_zero hp1 hp2 hp0
    have hrest : ∀ q ∈ L, q.1 < 9 ∧ q.2 < 9 ∧ setCell b p.1 p.2 0 q.1 q.2 ≠ 0 := by
      intro q hq
      obtain ⟨hq1, hq2, hq0⟩ := hmem q (List.mem_cons_of_mem p hq)
      have hqp : q ≠ p := by
        intro hcontra
        exact (List.nodup_cons.mp hnd).1 (hcontra ▸ hq)
      have hne : ¬(q.1 = p.1 ∧ q.2 = p.2) := by
        intro hcontra
        exact hqp (Prod.ext hcontra.1 hcontra.2)
      rw [setCell_other b hne]
      exact ⟨hq1, hq2, hq0⟩
    have := ih (setCell b p.1 p.2 0) (List.nodup_cons.mp hnd).2 hrest
    simp only [List.foldl_cons, List.length_cons]
    omega

/-- Carving only empties cells: any cell left non-empty is untouched. -/
lemma zeroFold_agree : ∀ (L : List (Nat × Nat)) (b : Board) (r c : Nat),
    (L.foldl (fun bb p => setCell bb p.1 p.2 0) b) r c ≠ 0 →
    (L.foldl (fun bb p => setCell bb p.1 p.2 0) b) r c = b r c := by
  intro L
  induction L with
  | nil => intro b r c _; rfl
  | cons p L ih =>
    intro b r c hne
    simp only [List.foldl_cons] at hne ⊢
    have heq := ih (setCell b p.1 p.2 0) r c hne
    rw [heq] at hne ⊢
    by_cases hp : r = p.1 ∧ c = p.2
    · rw [hp.1, hp.2] at hne
      rw [setCell_same] at hne
      exact absurd rfl hne
    · exact setCell_other b hp

lemma allPositions_nodup : allPositions.Nodup := by decide

lemma allPositions_length : allPositions.length = 81 := by decide

/-- C3: `generate_full_solution` always returns a grid in which every row,
column, and 3×3 box contains each digit 1–9 exactly once; and for every
`holes ≤ 81`, `generate_random(holes)` returns a grid with exactly
`81 - holes` non-zero cells, each non-zero cell agreeing with some fully
valid complete solution.  Randomness is modelled by `sup` (the per-visit
candidate shuffles) and `positions` (the shuffled position list). -/
theorem generator_validity (sup : Nat → List Nat) (hsup : supOK sup) :
    fullyValid (generate_full_solution sup) ∧
    ∀ holes positions, holes ≤ 81 → positions.Perm allPositions →
      countFilled (generate_random holes sup positions) = 81 - holes ∧
      ∃ S, fullyValid S ∧ ∀ r < 9, ∀ c < 9,
        generate_random holes sup positions r c ≠ 0 →
        generate_random holes sup positions r c = S r c := by
  have hsup0 : ∀ k n, n ∈ sup k → n ≠ 0 := by
    intro k n hn
    have := mem_digits.mp ((hsup k n).mp hn)
    omega
  have hsupb : ∀ k n, n ∈ sup k → 1 ≤ n ∧ n ≤ 9 :=
    fun k n hn => mem_digits.mp ((hsup k n).mp hn)
  have hsupfull : ∀ k d, 1 ≤ d → d ≤ 9 → d ∈ sup k :=
    fun k d h1 h9 => (hsup k d).mpr (mem_digits.mpr ⟨h1, h9⟩)
  have hext : extendsB emptyBoard fullB := fun _ _ _ _ hne => absurd rfl hne
  have hcz : countZeros emptyBoard < 82 := by
    have := countZeros_le_81 emptyBoard
    omega
  have hok : (searchFuel is_valid_static sup 82 emptyBoard 0).2.1 = true :=
    searchFuel_complete
      (fun g' r c hx hr hc h0 =>
        is_valid_static_of_extends hx fullB_AllOk fullB_noZeros hr hc h0)
      hsup0 hsupfull fullB_AllOk fullB_noZeros 82 emptyBoard 0 hcz hext
  have hsound := searchFuel_sound
    (fun _ _ _ _ hr hc hv => is_valid_static_imp_move hr hc hv)
    hsupb 82 emptyBoard 0 (by omega) hok
  have hGz : noZeros (generate_full_solution sup) := hsound.2.1
  have hGA : AllOk (generate_full_solution sup) := hsound.2.2 emptyBoard_AllOk
  have hGfv : fullyValid (generate_full_solution sup) :=
    fullyValid_of_AllOk hGA hGz
  refine ⟨hGfv, ?_⟩
  intro holes positions hh hperm
  have hplen : positions.length = 81 := by
    rw [hperm.length_eq, allPositions_length]
  have hpnodup : positions.Nodup := hperm.nodup_iff.mpr allPositions_nodup
  have hLnodup : (positions.take holes).Nodup :=
    hpnodup.sublist (List.take_sublist holes positions)
  have hLlen : (positions.take holes).length = holes := by
    rw [List.length_take, hplen]
    omega
  have hLmem : ∀ p ∈ positions.take holes,
      p.1 < 9 ∧ p.2 < 9 ∧ generate_full_solution sup p.1 p.2 ≠ 0 := by
    intro p hp
    have hmem : p ∈ allPositions :=
      hperm.mem_iff.mp (List.take_subset holes positions hp)
    have hb := mem_allPositions.mp hmem
    exact ⟨hb.1, hb.2, hGz p.1 hb.1 p.2 hb.2⟩
  have hfold := zeroFold_filled (positions.take holes)
    (generate_full_solution sup) hLnodup hLmem
  have hG81 : countFilled (generate_full_solution sup) = 81 :=
    countFilled_of_noZeros hGz
  constructor
  · simp only [generate_random]
    omega
  · refine ⟨generate_full_solution sup, hGfv, ?_⟩
    intro r _ c _ hne
    exact zeroFold_agree (positions.take holes) (generate_full_solution sup) r c hne

theorem generator_validity_wit :
    supOK (fun _ => digits) ∧ (40 : Nat) ≤ 81 ∧ allPositions.Perm allPositions ∧
      (fullyValid (generate_full_solution fun _ => digits) ∧
        ∀ holes positions, holes ≤ 81 → positions.Perm allPositions →
          countFilled (generate_random holes (fun _ => digits) positions)
              = 81 - holes ∧
            ∃ S, fullyValid S ∧ ∀ r < 9, ∀ c < 9,
              generate_random holes (fun _ => digits) positions r c ≠ 0 →
              generate_random holes (fun _ => digits) positions r c = S r c) :=
  ⟨fun _ _ => Iff.rfl, by decide, List.Perm.refl allPositions,
    generator_validity (fun _ => digits) (fun _ _ => Iff.rfl)⟩

/-! ### The edit session (`GameboardController`)

Pairs `(x, y)` mirror the source's `[x, y]` (column, row) index pairs used
for `selected_cell`, `invalid_cells` and the hint position; the boards are
indexed `cells y x` (row-major) exactly as `self.gameboard.cells[y][x]`.
The UI-transient fields `cursor_pos : [f64; 2]` and `mouse_pressed` are
floating-point/pointer feedback with no engine meaning and are omitted. -/

structure Change where
  x : Nat
  y : Nat
  prev : Nat

structure Controller where
  cells : Board
  selected_cell : Option (Nat × Nat)
  initial_cells : Board
  invalid_cells : List (Nat × Nat)
  history : List Board
  changes : List Change
  hint : Option ((Nat × Nat) × Nat)
  show_all : Bool
  solved_cache : Option Board
  submitted : Bool

/-- `GameboardController::push_history`: cap at 100 by evicting the oldest
snapshot, then append the current grid. -/
def push_history (c : Controller) : Controller :=
  let h := if 100 ≤ c.history.length then c.history.tail else c.history
  { c with history := h ++ [c.cells] }

/-- `GameboardController::push_change`: cap at 200, then append the delta. -/
def push_change (c : Controller) (x y prev : Nat) : Controller :=
  let l := if 200 ≤ c.changes.length then c.changes.tail else c.changes
  { c with changes := l ++ [⟨x, y, prev⟩] }

/-- `GameboardController::recompute_invalid_cells` as a function of the two
boards: the editable cells holding an invalid non-zero value, in scan order. -/
def invalidScan (initial cells : Board) : List (Nat × Nat) :=
  (List.range 9).flatMap fun y => (List.range 9).filterMap fun x =>
    if initial y x = 0 ∧ cells y x ≠ 0 ∧
        is_valid_move cells y x (cells y x) = false
    then some (x, y) else none

/-- `GameboardController::recompute_solution_cache`. -/
def recompute_solution_cache (c : Controller) : Controller :=
  if c.show_all = false then { c with solved_cache := none }
  else if (solveB c.initial_cells).2 = true then
    { c with solved_cache := some (solveB c.initial_cells).1 }
  else { c with solved_cache := none }

/-- `GameboardController::toggle_show_all` (note: no `submitted` guard). -/
def toggle_show_all (c : Controller) : Controller :=
  if c.show_all = true then { c with show_all := false, solved_cache := none }
  else recompute_solution_cache { c with show_all := true }

/-- `GameboardController::has_user_input`. -/
def has_user_input (c : Controller) : Bool :=
  (List.range 9).any fun y => (List.range 9).any fun x =>
    c.cells y x != c.initial_cells y x

/-- The digit-entry branch of `GameboardController::event` for digit `d`. -/
def enter_digit (c : Controller) (d : Nat) : Controller :=
  match c.selected_cell with
  | none => c
  | some ind =>
    let x := ind.1
    let y := ind.2
    if c.initial_cells y x ≠ 0 ∨ c.submitted = true then c
    else if c.cells y x ≠ d then
      let c1 := push_change c x y (c.cells y x)
      let c2 := { c1 with cells := setCell c1.cells y x d }
      let c3 := if c2.show_all = true then recompute_solution_cache c2 else c2
      if is_valid_move c3.cells y x d = true then
        { c3 with invalid_cells := c3.invalid_cells.filter (· != ind) }
      else if ind ∈ c3.invalid_cells then c3
      else { c3 with invalid_cells := c3.invalid_cells ++ [ind] }
    else c

/-- The Backspace/Delete branch of `GameboardController::event`. -/
def clear_cell (c : Controller) : Controller :=
  match c.selected_cell with
  | none => c
  | some ind =>
    let x := ind.1
    let y := ind.2
    if c.initial_cells y x ≠ 0 ∨ c.submitted = true then c
    else if c.cells y x ≠ 0 then
      let c1 := push_change c x y (c.cells y x)
      let c2 := { c1 with cells := setCell c1.cells y x 0,
                          invalid_cells := c1.invalid_cells.filter (· != ind) }
      if c2.show_all = true then recompute_solution_cache c2 else c2
    else c

/-- Modelled from the spec: `GameboardController::undo` is called by the
event handler but its body is absent from the source (only its doc comment
remains).  Per the spec it is a no-op when submitted, otherwise pops the
most recent full-grid snapshot from `history` (if any), replaces the
working grid wholesale, and fully recomputes `invalid_cells` by scanning
every cell against `is_valid_move` (the source's
`recompute_invalid_cells`, i.e. `invalidScan`). -/
def undo (c : Controller) : Controller :=
  if c.submitted = true then c
  else
    match c.history.getLast? with
    | none => c
    | some snap =>
      { c with cells := snap, history := c.history.dropLast,
               invalid_cells := invalidScan c.initial_cells snap }

/-- `GameboardController::reset`. -/
def reset (c : Controller) : Controller :=
  if has_user_input c = false ∨ c.submitted = true then c
  else
    let c1 := push_history c
    { c1 with cells := c.initial_cells, invalid_cells := [], hint := none,
              show_all := false, solved_cache := none }

/-- `GameboardController::randomize` (randomness via `sup`/`positions`). -/
def randomize (c : Controller) (holes : Nat) (sup : Nat → List Nat)
    (positions : List (Nat × Nat)) : Controller :=
  let c1 := push_history c
  let b := generate_random holes sup positions
  { c1 with cells := b, initial_cells := b, invalid_cells := [], hint := none,
            show_all := false, solved_cache := none, submitted := false }

/-- Number of legal digits for cell `(row y, col x)`, as counted by
`show_hint`'s inner loop over `1..=9`. -/
def candCount (cells : Board) (y x : Nat) : Nat :=
  digits.countP fun num => is_valid_move cells y x num

/-- `usize::MAX`, the initial best-count in `show_hint`'s scan. -/
def usizeMax : Nat := 2 ^ 64 - 1

/-- The cell-selection scan of `show_hint`: positions `(y, x)` in row-major
order; skip fixed or filled cells; track the first cell with the strictly
smallest positive candidate count; stop early once the count reaches 1
(the source `break`s out of both loops then).  The state is
`(best_pos as (x, y), best_count)`. -/
def hintScanGo (initial cells : Board) :
    List (Nat × Nat) → Option (Nat × Nat) × Nat → Option (Nat × Nat) × Nat
  | [], s => s
  | q :: rest, s =>
    if s.2 = 1 then s
    else
      let y := q.1
      let x := q.2
      if initial y x ≠ 0 then hintScanGo initial cells rest s
      else if cells y x ≠ 0 then hintScanGo initial cells rest s
      else
        let cnt := candCount cells y x
        if 0 < cnt ∧ cnt < s.2 then hintScanGo initial cells rest (some (x, y), cnt)
        else hintScanGo initial cells rest s

/-- `GameboardController::show_hint`. -/
def show_hint (c : Controller) : Controller :=
  if c.submitted = true then c
  else if c.hint.isSome then { c with hint := none }
  else
    let scan := hintScanGo c.initial_cells c.cells allPositions (none, usizeMax)
    match scan.1 with
    | none => { c with hint := none }
    | some t =>
      let tx := t.1
      let ty := t.2
      if (solveB c.cells).2 = true then
        let val := (solveB c.cells).1 ty tx
        if 1 ≤ val ∧ val ≤ 9 then { c with hint := some ((tx, ty), val) }
        else { c with hint := none }
      else { c with hint := none }

/-- The grading loop of `GameboardController::submit`: editable cells whose
non-empty player value differs from the solved value, pushed as `[x, y]`. -/
def gradeList (initial cells sol : Board) : List (Nat × Nat) :=
  (List.range 9).flatMap fun y => (List.range 9).filterMap fun x =>
    if initial y x = 0 ∧ cells y x ≠ 0 ∧ cells y x ≠ sol y x
    then some (x, y) else none

/-- `GameboardController::submit`. -/
def submit (c : Controller) : Controller :=
  if c.submitted = true then c
  else if (solveB c.initial_cells).2 = true then
    { c with submitted := true, hint := none,
             invalid_cells := gradeList c.initial_cells c.cells
               (solveB c.initial_cells).1 }
  else c

/-- The board-click branch of `GameboardController::event`, given the cell
the pointer resolved to: confirm a matching pending hint if the cell is
still editable and empty, otherwise select the cell. -/
def click_cell (c : Controller) (cx cy : Nat) : Controller :=
  match c.hint with
  | some hv =>
    if hv.1 = (cx, cy) then
      if c.initial_cells cy cx = 0 ∧ c.cells cy cx = 0 then
        let c1 := push_change c cx cy 0
        let c2 := { c1 with cells := setCell c1.cells cy cx hv.2, hint := none,
                            invalid_cells := c1.invalid_cells.filter (· != (cx, cy)) }
        let c3 := if c2.show_all = true then recompute_solution_cache c2 else c2
        if is_valid_move c3.cells cy cx hv.2 = false then
          { c3 with invalid_cells := c3.invalid_cells ++ [(cx, cy)] }
        else c3
      else { c with selected_cell := some (cx, cy) }
    else { c with selected_cell := some (cx, cy) }
  | none => { c with selected_cell := some (cx, cy) }

/-! ### Claim C4: submit grading -/

lemma gradeList_mem {initial cells sol : Board} {x y : Nat} :
    (x, y) ∈ gradeList initial cells sol ↔
      x < 9 ∧ y < 9 ∧ initial y x = 0 ∧ cells y x ≠ 0 ∧ cells y x ≠ sol y x := by
  simp only [gradeList, List.mem_flatMap, List.mem_range, List.mem_filterMap]
  constructor
  · rintro ⟨y', hy', x', hx', hif⟩
    by_cases hcond : initial y' x' = 0 ∧ cells y' x' ≠ 0 ∧ cells y' x' ≠ sol y' x'
    · rw [if_pos hcond] at hif
      injection hif with h
      injection h with h1 h2
      subst h1
      subst h2
      exact ⟨hx', hy', hcond.1, hcond.2.1, hcond.2.2⟩
    · rw [if_neg hcond] at hif
      exact absurd hif (by simp)
  · rintro ⟨hx, hy, h1, h2, h3⟩
    refine ⟨y, hy, x, hx, ?_⟩
    rw [if_pos ⟨h1, h2, h3⟩]

/-- C4: for a session whose `initial_cells` is solvable and which is not yet
submitted, after `submit()` the set `invalid_cells` contains exactly the
editable positions holding a non-zero player value that differs from the
deterministic ascending-digit-order solve of `initial_cells`; no empty
editable cell is in it; `submitted` is true and the hint is cleared. -/
theorem submit_grading (c : Controller) (hns : c.submitted = false)
    (hsolv : (solveB c.initial_cells).2 = true) :
    (submit c).submitted = true ∧ (submit c).hint = none ∧
      ∀ x y, ((x, y) ∈ (submit c).invalid_cells ↔
        x < 9 ∧ y < 9 ∧ c.initial_cells y x = 0 ∧ c.cells y x ≠ 0 ∧
          c.cells y x ≠ (solveB c.initial_cells).1 y x) := by
  have hsub : submit c =
      { c with submitted := true, hint := none,
               invalid_cells :=
                 gradeList c.initial_cells c.cells (solveB c.initial_cells).1 } := by
    unfold submit
    rw [if_neg (by rw [hns]; exact Bool.false_ne_true), if_pos hsolv]
  rw [hsub]
  exact ⟨rfl, rfl, fun x y => gradeList_mem⟩

/-- A session on the one-hole puzzle where the player entered a wrong digit. -/
def subC : Controller :=
  { cells := setCell oneHole 4 4 3, selected_cell := none, initial_cells := oneHole,
    invalid_cells := [], history := [], changes := [], hint := none,
    show_all := false, solved_cache := none, submitted := false }

theorem submit_grading_wit :
    subC.submitted = false ∧ (solveB subC.initial_cells).2 = true ∧
      ((submit subC).submitted = true ∧ (submit subC).hint = none ∧
        ∀ x y, ((x, y) ∈ (submit subC).invalid_cells ↔
          x < 9 ∧ y < 9 ∧ subC.initial_cells y x = 0 ∧ subC.cells y x ≠ 0 ∧
            subC.cells y x ≠ (solveB subC.initial_cells).1 y x)) :=
  ⟨rfl, by decide, submit_grading subC rfl (by decide)⟩

/-! ### Claim C5: terminal lock -/

/-- A submitted session (show-all off). -/
def lockC : Controller :=
  { cells := fullB, selected_cell := none, initial_cells := oneHole,
    invalid_cells := [], history := [], changes := [], hint := none,
    show_all := false, solved_cache := none, submitted := true }

/-- C5 counterexample: on a submitted session, `toggle_show_all` is *not* a
no-op — it has no `submitted` guard and flips `show_all` (recomputing the
solution cache), so not every command other than `randomize` leaves the
session unchanged. -/
theorem terminal_lock_cex :
    lockC.submitted = true ∧ (toggle_show_all lockC).show_all ≠ lockC.show_all := by
  constructor
  · rfl
  · decide

/-- C5 (amended): once `submitted = true`, the commands `enter_digit`,
`clear_cell`, `undo`, `reset`, `show_hint` and `submit` leave the whole
session unchanged; `randomize` mutates state and resets `submitted` to
false.  (`select`/directional moves and `toggle_show_all` are *not*
guarded and may still change `selected_cell` resp. `show_all`/cache.) -/
theorem terminal_lock (c : Controller) (h : c.submitted = true) (d holes : Nat)
    (sup : Nat → List Nat) (positions : List (Nat × Nat)) :
    enter_digit c d = c ∧ clear_cell c = c ∧ undo c = c ∧ reset c = c ∧
      show_hint c = c ∧ submit c = c ∧
      (randomize c holes sup positions).submitted = false := by
  refine ⟨?_, ?_, ?_, ?_, ?_, ?_, rfl⟩
  · cases hsel : c.selected_cell <;> simp [enter_digit, hsel, h]
  · cases hsel : c.selected_cell <;> simp [clear_cell, hsel, h]
  · simp [undo, h]
  · simp [reset, h]
  · simp [show_hint, h]
  · simp [submit, h]

theorem terminal_lock_wit :
    lockC.submitted = true ∧
      (enter_digit lockC 5 = lockC ∧ clear_cell lockC = lockC ∧
        undo lockC = lockC ∧ reset lockC = lockC ∧ show_hint lockC = lockC ∧
        submit lockC = lockC ∧
        (randomize lockC 40 (fun _ => digits) allPositions).submitted = false) :=
  ⟨rfl, terminal_lock lockC rfl 5 40 (fun _ => digits) allPositions⟩

/-! ### Frame lemmas: which fields each command leaves alone -/

lemma enter_digit_frame (c : Controller) (d : Nat) :
    (enter_digit c d).history = c.history ∧
      (enter_digit c d).initial_cells = c.initial_cells ∧
      (enter_digit c d).submitted = c.submitted := by
  unfold enter_digit push_change recompute_solution_cache
  cases c.selected_cell <;> dsimp only <;>
    first
    | (split_ifs <;> simp)
    | simp

lemma clear_cell_frame (c : Controller) :
    (clear_cell c).history = c.history ∧
      (clear_cell c).initial_cells = c.initial_cells ∧
      (clear_cell c).submitted = c.submitted := by
  unfold clear_cell push_change recompute_solution_cache
  cases c.selected_cell <;> dsimp only <;>
    first
    | (split_ifs <;> simp)
    | simp

lemma submit_history (c : Controller) : (submit c).history = c.history := by
  unfold submit
  split_ifs <;> rfl

lemma show_hint_history (c : Controller) : (show_hint c).history = c.history := by
  unfold show_hint
  dsimp only
  cases (hintScanGo c.initial_cells c.cells allPositions (none, usizeMax)).1 <;>
    dsimp only <;> split_ifs <;> rfl

lemma toggle_show_all_history (c : Controller) :
    (toggle_show_all c).history = c.history := by
  unfold toggle_show_all recompute_solution_cache
  split_ifs <;> rfl

lemma click_cell_history (c : Controller) (x y : Nat) :
    (click_cell c x y).history = c.history := by
  unfold click_cell push_change recompute_solution_cache
  cases c.hint <;> dsimp only <;> split_ifs <;> rfl

lemma push_history_spec (c : Controller) (hcap : c.history.length ≤ 100) :
    (push_history c).history.getLast? = some c.cells ∧
      (push_history c).history.length ≤ 100 := by
  unfold push_history
  dsimp only
  constructor
  · split_ifs <;> simp
  · split_ifs with h
    · rw [List.length_append, List.length_tail]
      simp
      omega
    · rw [List.length_append]
      simp
      omega

/-! ### Claim C8: history discipline -/

/-- A fresh unsubmitted session on the one-hole puzzle, cell (4,4) selected. -/
def cN : Controller :=
  { cells := oneHole, selected_cell := some (4, 4), initial_cells := oneHole,
    invalid_cells := [], history := [], changes := [], hint := none,
    show_all := false, solved_cache := none, submitted := false }

/-- C8 counterexample: entering a digit into a selected editable cell is a
mutating, non-no-op command (the cell changes from 0 to 3), yet no snapshot
is pushed — `history` stays empty, contradicting the claim that every
non-no-op mutating command pushes the pre-command grid. -/
theorem history_push_cex :
    cN.cells 4 4 = 0 ∧ (enter_digit cN 3).cells 4 4 = 3 ∧
      cN.history.length = 0 ∧ (enter_digit cN 3).history.length = 0 := by
  decide

/-- C8 (amended): only `reset` and `randomize` push a full snapshot of the
pre-command grid (and cap history at 100 by evicting the oldest); digit
entry and cell clearing record per-cell `changes` instead and never touch
`history`; no command grows `history` beyond 100. -/
theorem history_discipline (c : Controller) (d holes x y : Nat)
    (sup : Nat → List Nat) (positions : List (Nat × Nat))
    (hcap : c.history.length ≤ 100) :
    (enter_digit c d).history = c.history ∧
      (clear_cell c).history = c.history ∧
      (submit c).history = c.history ∧
      (show_hint c).history = c.history ∧
      (toggle_show_all c).history = c.history ∧
      (click_cell c x y).history = c.history ∧
      (undo c).history.length ≤ 100 ∧
      ((randomize c holes sup positions).history.getLast? = some c.cells ∧
        (randomize c holes sup positions).history.length ≤ 100) ∧
      (has_user_input c = true → c.submitted = false →
        (reset c).history.getLast? = some c.cells ∧
          (reset c).history.length ≤ 100) := by
  refine ⟨(enter_digit_frame c d).1, (clear_cell_frame c).1, submit_history c,
    show_hint_history c, toggle_show_all_history c, click_cell_history c x y,
    ?_, ?_, ?_⟩
  · unfold undo
    split_ifs
    · exact hcap
    · cases c.history.getLast? <;> dsimp only
      · exact hcap
      · rw [List.length_dropLast]
        omega
  · exact push_history_spec c hcap
  · intro hui hns
    unfold reset
    rw [if_neg (by rw [hui, hns]; simp)]
    exact push_history_spec c hcap

theorem history_discipline_wit :
    cN.history.length ≤ 100 ∧
      ((enter_digit cN 3).history = cN.history ∧
        (clear_cell cN).history = cN.history ∧
        (submit cN).history = cN.history ∧
        (show_hint cN).history = cN.history ∧
        (toggle_show_all cN).history = cN.history ∧
        (click_cell cN 1 1).history = cN.history ∧
        (undo cN).history.length ≤ 100 ∧
        ((randomize cN 40 (fun _ => digits) allPositions).history.getLast?
              = some cN.cells ∧
          (randomize cN 40 (fun _ => digits) allPositions).history.length ≤ 100) ∧
        (has_user_input cN = true → cN.submitted = false →
          (reset cN).history.getLast? = some cN.cells ∧
            (reset cN).history.length ≤ 100)) :=
  ⟨by decide, history_discipline cN 3 40 1 1 (fun _ => digits) allPositions (by decide)⟩

/-! ### Claim C7: enter_digit then undo -/

/-- C7 counterexample: on a fresh session (empty history) with an editable
empty cell selected, a non-no-op `enter_digit` followed by `undo` does NOT
restore the grid — digit entry pushes no history snapshot, so the modelled
undo (which pops `history`) finds nothing to pop and the entered digit
survives. -/
theorem enter_then_undo_cex :
    cN.submitted = false ∧ cN.selected_cell = some (4, 4) ∧
      cN.initial_cells 4 4 = 0 ∧ cN.cells 4 4 = 0 ∧
      (enter_digit cN 3).cells 4 4 = 3 ∧
      (undo (enter_digit cN 3)).cells 4 4 = 3 := by
  decide

lemma enter_digit_cells (c : Controller) {x y : Nat} (d : Nat)
    (hsel : c.selected_cell = some (x, y))
    (hedit : c.initial_cells y x = 0) (hns : c.submitted = false)
    (hchg : c.cells y x ≠ d) :
    (enter_digit c d).cells = setCell c.cells y x d := by
  unfold enter_digit push_change recompute_solution_cache
  rw [hsel]
  dsimp only
  rw [if_neg (by rw [hedit, hns]; simp), if_pos hchg]
  split_ifs <;> rfl

/-- C7 (amended): `enter_digit` pushes no history snapshot, so
enter-then-undo restores the pre-edit state only under extra conditions:
if the top history snapshot already equals the pre-edit grid, and the
pre-edit `invalid_cells` equals the full `is_valid_move` rescan of the
pre-edit grid, then `undo` after a non-no-op `enter_digit` restores both
the working grid and `invalid_cells` exactly. -/
theorem enter_then_undo (c : Controller) (x y d : Nat)
    (hsel : c.selected_cell = some (x, y))
    (hns : c.submitted = false)
    (hedit : c.initial_cells y x = 0)
    (hchg : c.cells y x ≠ d)
    (htop : c.history.getLast? = some c.cells)
    (hinv : c.invalid_cells = invalidScan c.initial_cells c.cells) :
    (undo (enter_digit c d)).cells = c.cells ∧
      (undo (enter_digit c d)).invalid_cells = c.invalid_cells := by
  have hframe := enter_digit_frame c d
  have hsub2 : (enter_digit c d).submitted = false := by rw [hframe.2.2, hns]
  unfold undo
  rw [hsub2, if_neg (by simp), hframe.1, htop]
  dsimp only
  refine ⟨rfl, ?_⟩
  show invalidScan (enter_digit c d).initial_cells c.cells = c.invalid_cells
  rw [hframe.2.1, ← hinv]

/-- Like `cN` but with the pre-edit grid already snapshotted and a
consistent `invalid_cells`. -/
def cW7 : Controller :=
  { cells := oneHole, selected_cell := some (4, 4), initial_cells := oneHole,
    invalid_cells := invalidScan oneHole oneHole, history := [oneHole],
    changes := [], hint := none, show_all := false, solved_cache := none,
    submitted := false }

theorem enter_then_undo_wit :
    cW7.selected_cell = some (4, 4) ∧ cW7.submitted = false ∧
      cW7.initial_cells 4 4 = 0 ∧ cW7.cells 4 4 ≠ 3 ∧
      cW7.history.getLast? = some cW7.cells ∧
      cW7.invalid_cells = invalidScan cW7.initial_cells cW7.cells ∧
      ((undo (enter_digit cW7 3)).cells = cW7.cells ∧
        (undo (enter_digit cW7 3)).invalid_cells = cW7.invalid_cells) :=
  ⟨rfl, rfl, by decide, by decide, rfl, rfl,
    enter_then_undo cW7 4 4 3 rfl rfl (by decide) (by decide) rfl rfl⟩

/-! ### Claim C9: confirming a hint by click -/

/-- A session with a pending hint at (4,4) whose cell the player has
meanwhile filled (cells = fullB has 9 there). -/
def cH : Controller :=
  { cells := fullB, selected_cell := none, initial_cells := oneHole,
    invalid_cells := [], history := [], changes := [], hint := some ((4, 4), 9),
    show_all := false, solved_cache := none, submitted := false }

/-- C9 counterexample: a click resolving exactly to the pending hint's
position does NOT clear the hint when the cell is no longer empty — the
source only clears `hint` inside the commit branch, and the claim's
"cleared regardless of whether the commit happened" is false. -/
theorem confirm_hint_cex :
    cH.hint = some ((4, 4), 9) ∧ cH.cells 4 4 ≠ 0 ∧
      (click_cell cH 4 4).hint = some ((4, 4), 9) ∧
      (click_cell cH 4 4).selected_cell = some (4, 4) := by
  decide

/-- C9 (amended): with a pending hint at `(hx, hy)`, a click resolving to
`(hx, hy)` commits the hinted value exactly when the cell is still editable
and empty — pushing a `Change` with previous value 0, writing the value,
and recomputing that cell's validity — and clears the hint; when the cell
is fixed or already filled, the hint is left pending and the click merely
selects the cell. -/
theorem confirm_hint_by_click (c : Controller) (hx hy v : Nat)
    (hh : c.hint = some ((hx, hy), v)) :
    (c.initial_cells hy hx = 0 ∧ c.cells hy hx = 0 →
      (click_cell c hx hy).hint = none ∧
        (click_cell c hx hy).cells = setCell c.cells hy hx v ∧
        (click_cell c hx hy).changes =
          (if 200 ≤ c.changes.length then c.changes.tail else c.changes)
            ++ [⟨hx, hy, 0⟩] ∧
        (click_cell c hx hy).invalid_cells =
          (if is_valid_move (setCell c.cells hy hx v) hy hx v = false then
            c.invalid_cells.filter (· != (hx, hy)) ++ [(hx, hy)]
          else c.invalid_cells.filter (· != (hx, hy)))) ∧
    (¬(c.initial_cells hy hx = 0 ∧ c.cells hy hx = 0) →
      click_cell c hx hy = { c with selected_cell := some (hx, hy) }) := by
  unfold click_cell push_change recompute_solution_cache
  rw [hh]
  dsimp only
  rw [if_pos rfl]
  constructor
  · intro hcond
    rw [if_pos hcond]
    split_ifs <;> simp_all
  · intro hcond
    rw [if_neg hcond]

/-- A session with a pending hint at the still-empty editable cell (4,4). -/
def cH2 : Controller :=
  { cells := oneHole, selected_cell := none, initial_cells := oneHole,
    invalid_cells := [], history := [], changes := [], hint := some ((4, 4), 9),
    show_all := false, solved_cache := none, submitted := false }

theorem confirm_hint_by_click_wit :
    cH2.hint = some ((4, 4), 9) ∧
      ((cH2.initial_cells 4 4 = 0 ∧ cH2.cells 4 4 = 0 →
        (click_cell cH2 4 4).hint = none ∧
          (click_cell cH2 4 4).cells = setCell cH2.cells 4 4 9 ∧
          (click_cell cH2 4 4).changes =
            (if 200 ≤ cH2.changes.length then cH2.changes.tail else cH2.changes)
              ++ [⟨4, 4, 0⟩] ∧
          (click_cell cH2 4 4).invalid_cells =
            (if is_valid_move (setCell cH2.cells 4 4 9) 4 4 9 = false then
              cH2.invalid_cells.filter (· != (4, 4)) ++ [(4, 4)]
            else cH2.invalid_cells.filter (· != (4, 4)))) ∧
      (¬(cH2.initial_cells 4 4 = 0 ∧ cH2.cells 4 4 = 0) →
        click_cell cH2 4 4 = { cH2 with selected_cell := some (4, 4) })) :=
  ⟨rfl, confirm_hint_by_click cH2 4 4 9 rfl⟩

/-! ### Claim C6: hint selection -/

/-- Cell `q = (y, x)` is editable (not part of the puzzle) and currently
empty. -/
def editableEmpty (initial cells : Board) (q : Nat × Nat) : Prop :=
  initial q.1 q.2 = 0 ∧ cells q.1 q.2 = 0

/-- The claim's description of the selected cell: `q = (y, x)` is an
editable empty cell whose positive candidate count `m` is minimal among
all editable empty cells with a positive count, and every editable empty
cell strictly earlier in scan order has count 0 or a strictly larger
count (ties resolved to the first cell in scan order). -/
def isHintTarget (initial cells : Board) (q : Nat × Nat) (m : Nat) : Prop :=
  q ∈ allPositions ∧ editableEmpty initial cells q ∧
    candCount cells q.1 q.2 = m ∧ 0 < m ∧
    (∀ p ∈ allPositions, editableEmpty initial cells p →
      0 < candCount cells p.1 p.2 → m ≤ candCount cells p.1 p.2) ∧
    (∀ l1 l2, allPositions = l1 ++ q :: l2 → ∀ p ∈ l1,
      editableEmpty initial cells p →
      candCount cells p.1 p.2 = 0 ∨ m < candCount cells p.1 p.2)

lemma candCount_le_9 (cells : Board) (y x : Nat) : candCount cells y x ≤ 9 := by
  have := List.countP_le_length (p := fun num => is_valid_move cells y x num)
    (l := digits)
  simpa [candCount, digits] using this

lemma hintScanGo_stop (initial cells : Board) :
    ∀ (L : List (Nat × Nat)) s, s.2 = 1 → hintScanGo initial cells L s = s := by
  intro L
  induction L with
  | nil => intro s _; rfl
  | cons q L ih =>
    intro s h
    simp only [hintScanGo]
    rw [if_pos h]

lemma hintScanGo_append (initial cells : Board) (L1 L2 : List (Nat × Nat)) :
    ∀ s, hintScanGo initial cells (L1 ++ L2) s
      = hintScanGo initial cells L2 (hintScanGo initial cells L1 s) := by
  induction L1 with
  | nil => intro s; rfl
  | cons q L1 ih =>
    intro s
    by_cases h1 : s.2 = 1
    · rw [hintScanGo_stop initial cells _ s h1,
        hintScanGo_stop initial cells _ s h1,
        hintScanGo_stop initial cells _ s h1]
    · simp only [List.cons_append, hintScanGo]
      rw [if_neg h1, if_neg h1]
      split_ifs <;> exact ih _

/-- While every remaining editable empty cell has count 0 or a count at
least the current best, the scan state never changes. -/
lemma hintScanGo_stable (initial cells : Board) :
    ∀ (L : List (Nat × Nat)) s,
      (∀ p ∈ L, editableEmpty initial cells p →
        candCount cells p.1 p.2 = 0 ∨ s.2 ≤ candCount cells p.1 p.2) →
      hintScanGo initial cells L s = s := by
  intro L
  induction L with
  | nil => intro s _; rfl
  | cons q L ih =>
    intro s hL
    simp only [hintScanGo]
    split_ifs with h1 h2 h3 h4
    · rfl
    · exact ih s fun p hp => hL p (List.mem_cons_of_mem q hp)
    · exact ih s fun p hp => hL p (List.mem_cons_of_mem q hp)
    · exfalso
      have hq := hL q (List.mem_cons_self q L)
        ⟨by omega, by omega⟩
      omega
    · exact ih s fun p hp => hL p (List.mem_cons_of_mem q hp)

/-- While every scanned editable empty cell has count 0 or a count
strictly above `m`, the best count stays strictly above `m`. -/
lemma hintScanGo_gt (initial cells : Board) (m : Nat) (hm : 0 < m) :
    ∀ (L : List (Nat × Nat)) s, m < s.2 →
      (∀ p ∈ L, editableEmpty initial cells p →
        candCount cells p.1 p.2 = 0 ∨ m < candCount cells p.1 p.2) →
      m < (hintScanGo initial cells L s).2 := by
  intro L
  induction L with
  | nil => intro s hs _; exact hs
  | cons q L ih =>
    intro s hs hL
    simp only [hintScanGo]
    split_ifs with h1 h2 h3 h4
    · exact hs
    · exact ih s hs fun p hp => hL p (List.mem_cons_of_mem q hp)
    · exact ih s hs fun p hp => hL p (List.mem_cons_of_mem q hp)
    · have hq := hL q (List.mem_cons_self q L) ⟨by omega, by omega⟩
      have hcnt : m < candCount cells q.1 q.2 := by omega
      exact ih _ hcnt fun p hp => hL p (List.mem_cons_of_mem q hp)
    · exact ih s hs fun p hp => hL p (List.mem_cons_of_mem q hp)

/-- The scan returns exactly the spec-described cell and its count. -/
lemma hintScanGo_finds_target {initial cells : Board} {q : Nat × Nat} {m : Nat}
    (ht : isHintTarget initial cells q m) :
    hintScanGo initial cells allPositions (none, usizeMax)
      = (some (q.2, q.1), m) := by
  obtain ⟨hqmem, hqe, hqc, hm, hmin, hfirst⟩ := ht
  obtain ⟨l1, l2, hsplit⟩ := List.append_of_mem hqmem
  rw [hsplit, hintScanGo_append]
  have hq9 := candCount_le_9 cells q.1 q.2
  have husize : m < (none (α := Nat × Nat), usizeMax).2 := by
    simp only [usizeMax]
    omega
  have h1 : m < (hintScanGo initial cells l1 (none, usizeMax)).2 :=
    hintScanGo_gt initial cells m hm l1 (none, usizeMax) husize
      (hfirst l1 l2 hsplit)
  simp only [hintScanGo]
  rw [if_neg (by omega), if_neg (by simp [hqe.1]), if_neg (by simp [hqe.2])]
  rw [if_pos (by rw [hqc]; exact ⟨hm, h1⟩)]
  rw [hqc]
  refine hintScanGo_stable initial cells l2 (some (q.2, q.1), m) ?_
  intro p hp hpe
  have hpmem : p ∈ allPositions := by
    rw [hsplit]
    exact List.mem_append_right l1 (List.mem_cons_of_mem q hp)
  by_cases h0 : candCount cells p.1 p.2 = 0
  · exact Or.inl h0
  · exact Or.inr (hmin p hpmem hpe (by omega))

/-- If no editable empty cell has a legal digit, the scan selects nothing. -/
lemma hintScanGo_none {initial cells : Board}
    (hno : ∀ p ∈ allPositions, editableEmpty initial cells p →
      candCount cells p.1 p.2 = 0) :
    hintScanGo initial cells allPositions (none, usizeMax)
      = (none, usizeMax) :=
  hintScanGo_stable initial cells allPositions (none, usizeMax)
    fun p hp hpe => Or.inl (hno p hp hpe)

/-- C6: on an unsubmitted session with no pending hint, `show_hint`
selects, among editable empty cells, the cell with the strictly smallest
positive count of digits passing `is_valid_move` (ties to the first cell in
scan order), and sets `hint` to that position `(x, y)` paired with that
cell's value in the ascending-order solve of a copy of the *current*
working grid; it produces no hint when no editable empty cell has any
legal digit, or when that solve fails. -/
theorem show_hint_selection (c : Controller) (hns : c.submitted = false)
    (hh : c.hint = none) :
    (∀ q m, isHintTarget c.initial_cells c.cells q m →
      (solveB c.cells).2 = true →
      (show_hint c).hint = some ((q.2, q.1), (solveB c.cells).1 q.1 q.2)) ∧
    ((∀ p ∈ allPositions, editableEmpty c.initial_cells c.cells p →
        candCount c.cells p.1 p.2 = 0) →
      (show_hint c).hint = none) ∧
    ((solveB c.cells).2 = false → (show_hint c).hint = none) := by
  have hsub : ¬(c.submitted = true) := by rw [hns]; exact Bool.false_ne_true
  have hhint : ¬(c.hint.isSome = true) := by rw [hh]; simp
  refine ⟨?_, ?_, ?_⟩
  · intro q m ht hsolv
    have hqmem := ht.1
    have hqe := ht.2.1
    have hq9 := mem_allPositions.mp hqmem
    obtain ⟨hfills, hz, _⟩ := solveB_sound hsolv
    have hval0 : (solveB c.cells).1 q.1 q.2 ≠ 0 := hz q.1 hq9.1 q.2 hq9.2
    have hvne : (solveB c.cells).1 q.1 q.2 ≠ c.cells q.1 q.2 := by
      rw [hqe.2]
      exact hval0
    have hvb := hfills q.1 q.2 hvne
    unfold show_hint
    rw [if_neg hsub, if_neg hhint]
    dsimp only
    rw [hintScanGo_finds_target ht]
    dsimp only
    rw [if_pos hsolv, if_pos ⟨hvb.2.2.2.1, hvb.2.2.2.2⟩]
  · intro hno
    unfold show_hint
    rw [if_neg hsub, if_neg hhint]
    dsimp only
    rw [hintScanGo_none hno]
  · intro hsolv
    unfold show_hint
    rw [if_neg hsub, if_neg hhint]
    dsimp only
    cases hscan : (hintScanGo c.initial_cells c.cells allPositions
        (none, usizeMax)).1 with
    | none => rfl
    | some t =>
      dsimp only
      rw [if_neg (by rw [hsolv]; exact Bool.false_ne_true)]

theorem show_hint_selection_wit :
    cN.submitted = false ∧ cN.hint = none ∧
      ((∀ q m, isHintTarget cN.initial_cells cN.cells q m →
        (solveB cN.cells).2 = true →
        (show_hint cN).hint = some ((q.2, q.1), (solveB cN.cells).1 q.1 q.2)) ∧
      ((∀ p ∈ allPositions, editableEmpty cN.initial_cells cN.cells p →
          candCount cN.cells p.1 p.2 = 0) →
        (show_hint cN).hint = none) ∧
      ((solveB cN.cells).2 = false → (show_hint cN).hint = none)) :=
  ⟨rfl, rfl, show_hint_selection cN rfl rfl⟩

end Sudoku
